import Mathlib

/-!
Verification development for the fla-lab machine-description language:
a shallow embedding of the lexer, the section parser and the four
validator/simulator pairs (DFA, NFA, PDA, TM), together with theorems
about the properties the design document states.

Conventions of the embedding:
* Rust `&'static str` slices resolved through byte spans become `String`
  values obtained by slicing the source at byte offsets (`resolve`).
* `HashSet`/`HashMap` become lists; only membership / lookup behaviour is
  used by the programs, which is order-insensitive at every point where the
  original iterates a hash container (at most one entry can match).
* Fallible Rust code returning `miette::Result` becomes `Except`;
  a reachable `unwrap()` on `None` or an explicit `panic!` is modelled by a
  dedicated `panicked` outcome.
* Loops whose termination is not structural take a fuel argument chosen
  large enough that exhaustion is unreachable on the inputs considered;
  exhaustion is mapped to the `panicked` outcome as well.
* `char::is_alphanumeric` is modelled by `Char.isAlphanum`, which agrees on
  ASCII; all concrete inputs used below are ASCII.
-/

set_option maxHeartbeats 1000000

namespace FlaLab

/-- Byte span into the source buffer, mirroring `miette::SourceSpan`. -/
structure Span where
  off : Nat
  len : Nat
deriving DecidableEq, Repr

/-- Token kinds, mirroring `parser.rs` `TokenKind`. -/
inductive TokenKind where
  | leftSquareBracket
  | rightSquareBracket
  | leftParen
  | rightParen
  | comma
  | colon
  | arrow
  | identifier
  | push
  | pop
  | noop
  | write
  | left
  | right
  | eof
deriving DecidableEq, Repr

/-- A token: kind plus byte span.  Equality is structural (kind + span),
exactly as the derived `PartialEq` on the Rust `Token`. -/
structure Token where
  kind : TokenKind
  span : Span
deriving DecidableEq, Repr

/-- Number of UTF-8 bytes of a character (mirrors Rust `char::len_utf8`). -/
def charUtf8Size (c : Char) : Nat :=
  if c.toNat < 0x80 then 1
  else if c.toNat < 0x800 then 2
  else if c.toNat < 0x10000 then 3
  else 4

/-- Total UTF-8 byte length of a string (mirrors Rust `str::len`). -/
def strBytes (s : String) : Nat :=
  (s.data.map charUtf8Size).foldr (· + ·) 0

/-- Characters of `cs` whose starting byte position lies in `[off, stop)`,
walking from byte position `pos`.  Used to model Rust byte slicing
`&src[off..stop]` for spans that lie on character boundaries. -/
def sliceBytesAux : List Char → Nat → Nat → Nat → List Char
  | [], _, _, _ => []
  | c :: cs, pos, off, stop =>
    let sz := charUtf8Size c
    if pos < off then sliceBytesAux cs (pos + sz) off stop
    else if pos < stop then c :: sliceBytesAux cs (pos + sz) off stop
    else []

/-- `token.src(src)`: the literal text of a token, resolved against the
source buffer (mirrors `Token::src`). -/
def resolve (src : String) (t : Token) : String :=
  ⟨sliceBytesAux src.data 0 t.span.off (t.span.off + t.span.len)⟩

/-- Lexical errors, mirroring `LexerError`. -/
inductive LexerError where
  | unexpectedCharacter (here : Span) (expected : String)
  | unexpectedEOF (lastToken : Token)
deriving DecidableEq, Repr

/-- Outcome of lexing: a token list, a lexical error, or a Rust panic
(the `tokens.last().unwrap()` in the `'='`-at-end-of-input branch). -/
inductive LexResult where
  | ok (toks : List Token)
  | err (e : LexerError)
  | panicked
deriving DecidableEq, Repr

/-- Identifier continuation test: alphanumeric or `_`
(mirrors `ch.is_alphanumeric() || *ch == '_'`, ASCII-faithful). -/
def isIdentChar (c : Char) : Bool :=
  c.isAlphanum || c = '_'

/-- Keyword recognition for a finished identifier (mirrors the
`match identifier.as_str()` in `Parser::lex`). -/
def keywordKind (s : String) : TokenKind :=
  if s = "PUSH" then .push
  else if s = "POP" then .pop
  else if s = "NOOP" then .noop
  else if s = "WRITE" then .write
  else if s = "LEFT" then .left
  else if s = "RIGHT" then .right
  else .identifier

/-- One step of the lexer loop.  `eofPos` is the byte length of the whole
input (span of the EOF sentinel), `pos` the current byte position,
`acc` the tokens already produced.  Fuel decreases every consumed
character; it is initialised to more than the character count, so
exhaustion (`panicked`) is unreachable. -/
def lexAux (eofPos : Nat) : Nat → List Token → Nat → List Char → LexResult
  | 0, _, _, _ => .panicked
  | _ + 1, acc, _, [] => .ok (acc ++ [⟨.eof, ⟨eofPos, 0⟩⟩])
  | fuel + 1, acc, pos, c :: cs =>
    if c = '[' then lexAux eofPos fuel (acc ++ [⟨.leftSquareBracket, ⟨pos, 1⟩⟩]) (pos + 1) cs
    else if c = ']' then lexAux eofPos fuel (acc ++ [⟨.rightSquareBracket, ⟨pos, 1⟩⟩]) (pos + 1) cs
    else if c = '(' then lexAux eofPos fuel (acc ++ [⟨.leftParen, ⟨pos, 1⟩⟩]) (pos + 1) cs
    else if c = ')' then lexAux eofPos fuel (acc ++ [⟨.rightParen, ⟨pos, 1⟩⟩]) (pos + 1) cs
    else if c = ',' then lexAux eofPos fuel (acc ++ [⟨.comma, ⟨pos, 1⟩⟩]) (pos + 1) cs
    else if c = ':' then lexAux eofPos fuel (acc ++ [⟨.colon, ⟨pos, 1⟩⟩]) (pos + 1) cs
    else if c = '=' then
      match cs with
      | [] =>
        match acc.getLast? with
        | some t => .err (.unexpectedEOF t)
        | none => .panicked
      | c2 :: cs2 =>
        if c2 ≠ '>' then .err (.unexpectedCharacter ⟨pos, 1⟩ ">")
        else lexAux eofPos fuel (acc ++ [⟨.arrow, ⟨pos, 2⟩⟩]) (pos + 2) cs2
    else if c = ' ' ∨ c = '\t' ∨ c = '\n' ∨ c = '\r' then
      lexAux eofPos fuel acc (pos + charUtf8Size c) cs
    else if c = '#' then
      let rest := cs.dropWhile (fun ch => ch ≠ '\n')
      let consumed := cs.takeWhile (fun ch => ch ≠ '\n')
      lexAux eofPos fuel acc (pos + charUtf8Size c + (consumed.map charUtf8Size).foldr (· + ·) 0) rest
    else
      let tail := cs.takeWhile isIdentChar
      let rest := cs.dropWhile isIdentChar
      let identChars := c :: tail
      let identBytes := (identChars.map charUtf8Size).foldr (· + ·) 0
      lexAux eofPos fuel (acc ++ [⟨keywordKind ⟨identChars⟩, ⟨pos, identBytes⟩⟩]) (pos + identBytes) rest

/-- `Parser::lex`: scan the whole source, appending the EOF sentinel. -/
def lexFn (input : String) : LexResult :=
  lexAux (strBytes input) (input.data.length + 1) [] 0 input.data

/-- Parse errors, mirroring `ParserError`. -/
inductive ParseError where
  | unexpectedToken (here : Span) (expected : String)
  | unexpectedEOF
  | missingSection (sec : String)
  | duplicateSection (here : Span) (other : Span)
  | unknownState (here : Span)
  | unknownAlphabetSymbol (here : Span)
  | unknownSectionName (here : Span)
deriving DecidableEq, Repr

/-- Failure of the parser: a structured error or a Rust panic
(an `unwrap()` past the end of the token iterator, or the explicit
`panic!("reached end of iter without consuming EOF")`). -/
inductive PFail where
  | perr (e : ParseError)
  | panicked
deriving DecidableEq, Repr

/-- Result monad for parser functions. -/
abbrev PRes (α : Type) := Except PFail α

/-- Mirrors `StackTransition` (the `()` payloads of the original carry no
information and are dropped). -/
inductive StackOp where
  | push (t : Token)
  | pop
  | noop
  | write (t : Token)
deriving DecidableEq, Repr

/-- Mirrors the parser's `Direction`. -/
inductive Dir where
  | left
  | right
deriving DecidableEq, Repr

/-- Mirrors `TransitionFrom` (`from` is a Lean keyword, hence `fromT`
below). -/
structure TransitionFrom where
  initial : Token
  withSymbol : Token
  withStackSymbol : Option Token
deriving DecidableEq, Repr

/-- Mirrors `TransitionTo`. -/
structure TransitionTo where
  state : Token
  stackOp : Option StackOp
  direction : Option Dir
deriving DecidableEq, Repr

/-- Mirrors `TransitionInfo`. -/
structure TransitionInfo where
  fromT : TransitionFrom
  toT : TransitionTo
deriving DecidableEq, Repr

/-- Mirrors `PartialMachineInfo`. -/
structure PartialMachineInfo where
  states : List Token
  alphabet : List Token
  transitions : List TransitionInfo
  startState : Token
  finalStates : List Token
  stackAlphabet : Option (List Token)
  startStack : Option Token
  tapeAlphabet : Option (List Token)
  blankSymbol : Option Token
deriving DecidableEq, Repr

/-- `input.next().unwrap()`: take the next token or panic when the
iterator is exhausted. -/
def nextTok : List Token → PRes (Token × List Token)
  | [] => .error .panicked
  | t :: rest => .ok (t, rest)

/-- The repeated assert pattern of the parser: consume one token, require
kind `k`; an EOF token is `UnexpectedEOF`, anything else is
`UnexpectedToken` naming `msg`. -/
def expectKind (k : TokenKind) (msg : String) : List Token → PRes (List Token)
  | [] => .error .panicked
  | t :: rest =>
    if t.kind = k then .ok rest
    else if t.kind = .eof then .error (.perr .unexpectedEOF)
    else .error (.perr (.unexpectedToken t.span msg))

/-- Consume one token that must be an identifier (same assert pattern). -/
def expectIdent (msg : String) : List Token → PRes (Token × List Token)
  | [] => .error .panicked
  | t :: rest =>
    if t.kind = .identifier then .ok (t, rest)
    else if t.kind = .eof then .error (.perr .unexpectedEOF)
    else .error (.perr (.unexpectedToken t.span msg))

/-- Mirrors `Parser::parse_section`: `[` name `]`, or `none` at EOF /
iterator end. -/
def parseSection (toks : List Token) : PRes (Option Token × List Token) :=
  match toks with
  | [] => .ok (none, [])
  | t :: rest =>
    match t.kind with
    | .leftSquareBracket => do
      let (name, rest2) ← expectIdent "<identifier>" rest
      let rest3 ← expectKind .rightSquareBracket "]" rest2
      .ok (some name, rest3)
    | .eof => .ok (none, rest)
    | _ => .error (.perr (.unexpectedToken t.span "["))

/-- Mirrors `Parser::parse_single_section`. -/
def parseSingleSection (toks : List Token) : PRes (Token × List Token) :=
  match toks with
  | [] => .error .panicked
  | t :: rest =>
    match t.kind with
    | .identifier => .ok (t, rest)
    | .eof => .error (.perr .unexpectedEOF)
    | _ => .error (.perr (.unexpectedToken t.span "<identifier>"))

/-- Mirrors `Parser::parse_list_section`: identifiers separated by commas,
ending (without consuming) at `[` or the EOF sentinel.  Running off the
end of the iterator is the original's `panic!`. -/
def parseListSection : Nat → List Token → List Token → PRes (List Token × List Token)
  | 0, _, _ => .error .panicked
  | _ + 1, _, [] => .error .panicked
  | fuel + 1, acc, t :: rest =>
    match t.kind with
    | .identifier =>
      match rest with
      | [] => .error .panicked
      | p :: rest2 =>
        match p.kind with
        | .comma => parseListSection fuel (acc ++ [t]) rest2
        | .eof => .ok (acc ++ [t], rest)
        | .leftSquareBracket => .ok (acc ++ [t], rest)
        | _ => .error (.perr (.unexpectedToken p.span ","))
    | .eof => .error (.perr .unexpectedEOF)
    | _ => .error (.perr (.unexpectedToken t.span "["))

/-- The optional `, stack_op-or-direction [, direction]` part of a
transition's right-hand side (the body of the two `peek` checks in
`parse_transitions`), returning the recorded stack operation and
direction together with the rest of the stream. -/
def parseTransOps (toks : List Token) : PRes ((Option StackOp × Option Dir) × List Token) :=
  match toks with
  | [] => .error .panicked
  | p :: rest0 =>
    if p.kind ≠ .comma then .ok ((none, none), toks)
    else do
      let (op, rest1) ← nextTok rest0
      let (stackOp, dir1, rest2) ←
        (match op.kind with
         | .push => do
             let r ← expectKind .colon ":" rest1
             let (sym, r2) ← expectIdent "<identifier>" r
             pure (some (StackOp.push sym), (none : Option Dir), r2)
         | .pop => pure (some .pop, none, rest1)
         | .noop => pure (some .noop, none, rest1)
         | .write => do
             let r ← expectKind .colon ":" rest1
             let (sym, r2) ← expectIdent "<identifier>" r
             pure (some (StackOp.write sym), none, r2)
         | .left => pure (none, some Dir.left, rest1)
         | .right => pure (none, some Dir.right, rest1)
         | .eof => .error (.perr .unexpectedEOF)
         | _ => .error (.perr (.unexpectedToken op.span "PUSH, POP, NOOP, WRITE, LEFT, or RIGHT")) :
          PRes (Option StackOp × Option Dir × List Token))
      match rest2 with
      | [] => .error .panicked
      | p2 :: rest3 =>
        if p2.kind ≠ .comma then .ok ((stackOp, dir1), rest2)
        else do
          let (d, rest4) ← nextTok rest3
          match d.kind with
          | .left => .ok ((stackOp, some Dir.left), rest4)
          | .right => .ok ((stackOp, some Dir.right), rest4)
          | .eof => .error (.perr .unexpectedEOF)
          | _ => .error (.perr (.unexpectedToken d.span "LEFT, RIGHT, or STAY"))

/-- Mirrors `Parser::parse_transitions`.  Note the original's oddity kept
here: a `[` where the destination state is expected returns the
transitions collected so far with the `[` consumed. -/
def parseTransitions : Nat → List TransitionInfo → List Token → PRes (List TransitionInfo × List Token)
  | 0, _, _ => .error .panicked
  | _ + 1, _, [] => .error .panicked
  | fuel + 1, acc, t :: rest =>
    match t.kind with
    | .eof => .ok (acc, rest)
    | .identifier => do
      let rest1 ← expectKind .leftParen "(" rest
      let (letterTok, rest2) ← expectIdent "<identifier>" rest1
      let (stackLetter, rest3) ←
        (match rest2 with
         | [] => .error .panicked
         | p :: r =>
           if p.kind = .comma then do
             let (sl, r2) ← expectIdent "<identifier>" r
             pure (some sl, r2)
           else pure (none, rest2) : PRes (Option Token × List Token))
      let rest4 ← expectKind .rightParen ")" rest3
      let rest5 ← expectKind .arrow "=>" rest4
      let rest6 ← expectKind .leftParen "(" rest5
      match rest6 with
      | [] => .error .panicked
      | n :: rest7 =>
        match n.kind with
        | .identifier => do
          let ((stackOp, dir1), rest8) ← parseTransOps rest7
          let rest9 ← expectKind .rightParen ")" rest8
          parseTransitions fuel
            (acc ++ [⟨⟨t, letterTok, stackLetter⟩, ⟨n, stackOp, dir1⟩⟩]) rest9
        | .eof => .error (.perr .unexpectedEOF)
        | .leftSquareBracket => .ok (acc, rest7)
        | _ => .error (.perr (.unexpectedToken n.span "<identifier>"))
    | _ => .error (.perr (.unexpectedToken t.span "["))

/-- The nine `mut` option variables of `Parser::parse`. -/
structure ParseVars where
  states : Option (List Token) := none
  alphabet : Option (List Token) := none
  stackAlphabet : Option (List Token) := none
  startStack : Option Token := none
  transitions : Option (List TransitionInfo) := none
  startState : Option Token := none
  finalStates : Option (List Token) := none
  tapeAlphabet : Option (List Token) := none
  blankSymbol : Option Token := none
deriving Repr

/-- The section loop of `Parser::parse`.  `seen` is the `seen_sections`
hash set of *tokens* (equality is kind + span). -/
def parseSectionsLoop (src : String) : Nat → List Token → ParseVars → List Token → PRes ParseVars
  | 0, _, _, _ => .error .panicked
  | fuel + 1, seen, vars, toks => do
    let (sec?, rest) ← parseSection toks
    match sec? with
    | none => .ok vars
    | some sec =>
      match seen.find? (fun tk => decide (tk = sec)) with
      | some tok => .error (.perr (.duplicateSection sec.span tok.span))
      | none => do
        let name := resolve src sec
        let (vars2, rest2) ←
          (if name = "initial" then do
             let (v, r) ← parseSingleSection rest
             pure ({ vars with startState := some v }, r)
           else if name = "final" then do
             let (v, r) ← parseListSection (rest.length + 1) [] rest
             pure ({ vars with finalStates := some v }, r)
           else if name = "states" then do
             let (v, r) ← parseListSection (rest.length + 1) [] rest
             pure ({ vars with states := some v }, r)
           else if name = "alphabet" then do
             let (v, r) ← parseListSection (rest.length + 1) [] rest
             pure ({ vars with alphabet := some v }, r)
           else if name = "stack_alphabet" then do
             let (v, r) ← parseListSection (rest.length + 1) [] rest
             pure ({ vars with stackAlphabet := some v }, r)
           else if name = "start_stack" then do
             let (v, r) ← parseSingleSection rest
             pure ({ vars with startStack := some v }, r)
           else if name = "tape_alphabet" then do
             let (v, r) ← parseListSection (rest.length + 1) [] rest
             pure ({ vars with tapeAlphabet := some v }, r)
           else if name = "blank_symbol" then do
             let (v, r) ← parseSingleSection rest
             pure ({ vars with blankSymbol := some v }, r)
           else if name = "transitions" then do
             let (v, r) ← parseTransitions (rest.length + 1) [] rest
             pure ({ vars with transitions := some v }, r)
           else .error (.perr (.unknownSectionName sec.span)) : PRes (ParseVars × List Token))
        parseSectionsLoop src fuel (seen ++ [sec]) vars2 rest2

/-- Mirrors `Parser::parse`: run the section loop, then require the five
mandatory sections. -/
def parseFn (src : String) (toks : List Token) : PRes PartialMachineInfo := do
  let vars ← parseSectionsLoop src (toks.length + 1) [] {} toks
  match vars.states with
  | none => .error (.perr (.missingSection "states"))
  | some states =>
  match vars.alphabet with
  | none => .error (.perr (.missingSection "alphabet"))
  | some alphabet =>
  match vars.transitions with
  | none => .error (.perr (.missingSection "transitions"))
  | some transitions =>
  match vars.startState with
  | none => .error (.perr (.missingSection "start_state"))
  | some startState =>
  match vars.finalStates with
  | none => .error (.perr (.missingSection "final_states"))
  | some finalStates =>
    .ok ⟨states, alphabet, transitions, startState, finalStates,
         vars.stackAlphabet, vars.startStack, vars.tapeAlphabet, vars.blankSymbol⟩

/-- Whether a parse outcome succeeded. -/
def presIsOk {α : Type} : PRes α → Bool
  | .ok _ => true
  | .error _ => false

/-- A source text in which the section name `states` appears twice as a
section header (all other required sections present and well formed). -/
def c1src : String :=
  "[states]q0[states]q1[alphabet]a[initial]q0[final]q0[transitions]q0(a)=>(q0)"

/-- Lex-then-parse pipeline applied to `c1src`. -/
def c1parsed : PRes PartialMachineInfo :=
  match lexFn c1src with
  | .ok toks => parseFn c1src toks
  | _ => .error .panicked

/-- The `states` lists of a parse outcome, resolved to literal text
(`[]` when parsing failed). -/
def c1statesResolved : List String :=
  match c1parsed with
  | .ok m => m.states.map (resolve c1src)
  | .error _ => []

/-- Association-list lookup (models `HashMap::get` / `contains_key`). -/
def lookupKV {κ β : Type} [DecidableEq κ] : List (κ × β) → κ → Option β
  | [], _ => none
  | kv :: rest, k => if kv.1 = k then some kv.2 else lookupKV rest k

/-- Number of entries of an association list with a given key. -/
def countKey {κ β : Type} [DecidableEq κ] (l : List (κ × β)) (k : κ) : Nat :=
  (l.filter (fun kv => decide (kv.1 = k))).length

/-- Shared `(state, symbol)` transition key (mirrors `machine::TransitionFrom`
after resolution). -/
structure SKey where
  initial : String
  withSymbol : String
deriving DecidableEq, Repr

/-- DFA validation errors (`DFAError` plus the `ParserError` variants the
DFA validator can return). -/
inductive DFAVErr where
  | multipleTransitions (initial withSymbol : String)
  | incompleteDFA (initial withSymbol : String)
  | stackOperationsNotAllowed
  | tapeOperationsNotAllowed
  | unknownState (here : Span)
  | unknownAlphabetSymbol (here : Span)
deriving DecidableEq, Repr

/-- Validated DFA `Info`. -/
structure DFAInfo where
  alphabet : List String
  transitions : List (SKey × String)
  startState : String
  finalStates : List String
deriving DecidableEq, Repr

/-- Resolve a whole token list against the source. -/
def resolveAll (src : String) (l : List Token) : List String :=
  l.map (resolve src)

/-- The final-states loop shared by the DFA/NFA validators: resolve each
final state, requiring it to be declared; on failure give the span of the
offending token. -/
def checkStatesList (states : List String) (src : String) : List Token → Except Span (List String)
  | [] => .ok []
  | f :: fs =>
    let s := resolve src f
    if s ∈ states then
      match checkStatesList states src fs with
      | .ok rest => .ok (s :: rest)
      | .error sp => .error sp
    else .error f.span

/-- The transition loop of the DFA validator (`dfa::Info::new`): per
transition, reject stack/tape operations, check states and symbol, and
insert into the table unless the key is already present. -/
def processDFATransitions (states alphabet : List String) (src : String) :
    List (SKey × String) → List TransitionInfo → Except DFAVErr (List (SKey × String))
  | acc, [] => .ok acc
  | acc, tr :: ts =>
    if tr.fromT.withStackSymbol.isSome then .error .stackOperationsNotAllowed
    else
      match tr.toT.stackOp with
      | some (.push _) | some .pop | some .noop => .error .stackOperationsNotAllowed
      | some (.write _) => .error .tapeOperationsNotAllowed
      | none =>
        if tr.toT.direction.isSome then .error .tapeOperationsNotAllowed
        else
          let fromS := resolve src tr.fromT.initial
          let sym := resolve src tr.fromT.withSymbol
          let toS := resolve src tr.toT.state
          if fromS ∉ states then .error (.unknownState tr.fromT.initial.span)
          else if toS ∉ states then .error (.unknownState tr.toT.state.span)
          else if sym ∉ alphabet then .error (.unknownAlphabetSymbol tr.fromT.withSymbol.span)
          else if (lookupKV acc ⟨fromS, sym⟩).isSome then .error (.multipleTransitions fromS sym)
          else processDFATransitions states alphabet src ((⟨fromS, sym⟩, toS) :: acc) ts

/-- The completeness check of the DFA validator: first `(state, symbol)`
pair over declared states × alphabet with no table entry, if any. -/
def firstMissingInner (table : List (SKey × String)) (s : String) : List String → Option (String × String)
  | [] => none
  | a :: rest =>
    if (lookupKV table ⟨s, a⟩).isNone then some (s, a) else firstMissingInner table s rest

/-- Outer loop of the completeness check. -/
def firstMissing (table : List (SKey × String)) (alphabet : List String) :
    List String → Option (String × String)
  | [] => none
  | s :: rest =>
    match firstMissingInner table s alphabet with
    | some p => some p
    | none => firstMissing table alphabet rest

/-- Mirrors `dfa::Info::new`. -/
def dfaInfoNew (m : PartialMachineInfo) (src : String) : Except DFAVErr DFAInfo :=
  if m.stackAlphabet.isSome || m.startStack.isSome then .error .stackOperationsNotAllowed
  else if m.tapeAlphabet.isSome || m.blankSymbol.isSome then .error .tapeOperationsNotAllowed
  else
    let states := resolveAll src m.states
    let alphabet := resolveAll src m.alphabet
    match checkStatesList states src m.finalStates with
    | .error sp => .error (.unknownState sp)
    | .ok finals =>
      if resolve src m.startState ∈ states then
        match processDFATransitions states alphabet src [] m.transitions with
        | .error e => .error e
        | .ok table =>
          match firstMissing table alphabet states with
          | some p => .error (.incompleteDFA p.1 p.2)
          | none => .ok ⟨alphabet, table, resolve src m.startState, finals⟩
      else .error (.unknownState m.startState.span)

/-- Outcome of a DFA run, separating the two rejection `println!` branches
of `dfa::Machine::run` from ordinary end-of-input rejection. -/
inductive DFAOutcome where
  | accepted
  | rejected
  | rejectedNoSymbol
  | rejectedNoEntry
deriving DecidableEq, Repr

/-- The symbol-matching condition of the machines: an alphabet entry
matches input character `c` when its byte length is 1 and its first
character is `c`. -/
def symMatches (c : Char) (s : String) : Bool :=
  strBytes s = 1 && s.data.head? = some c

/-- The character loop of `dfa::Machine::run`. -/
def dfaRunFrom (info : DFAInfo) : List Char → String → DFAOutcome
  | [], cur => if cur ∈ info.finalStates then .accepted else .rejected
  | c :: cs, cur =>
    match info.alphabet.find? (symMatches c) with
    | none => .rejectedNoSymbol
    | some sym =>
      match lookupKV info.transitions ⟨cur, sym⟩ with
      | none => .rejectedNoEntry
      | some t => dfaRunFrom info cs t

/-- Mirrors `dfa::Machine::run` (instrumented with the rejection reason). -/
def dfaRun (info : DFAInfo) (input : String) : DFAOutcome :=
  dfaRunFrom info input.data info.startState

/-- NFA validation errors (`NFAError` plus the `ParserError` variants the
NFA validator can return). -/
inductive NFAVErr where
  | stackOperationsNotAllowed
  | tapeOperationsNotAllowed
  | unknownState (here : Span)
  | unknownAlphabetSymbol (here : Span)
deriving DecidableEq, Repr

/-- Validated NFA `Info`. -/
structure NFAInfo where
  alphabet : List String
  transitions : List (SKey × List String)
  startState : String
  finalStates : List String
deriving DecidableEq, Repr

/-- `transitions.entry(key).or_insert_with(Vec::new).push(v)`. -/
def nfaInsert (l : List (SKey × List String)) (k : SKey) (v : String) : List (SKey × List String) :=
  match lookupKV l k with
  | none => l ++ [(k, [v])]
  | some _ => l.map (fun kv => if kv.1 = k then (kv.1, kv.2 ++ [v]) else kv)

/-- The transition loop of `nfa::Info::new`.  Note that the first check
faithfully reproduces the original's
`if transition.from.with_stack_symbol.is_some() || transition.to.1.is_some()`,
which makes the subsequent match on the stack operation (the branch that
would report `TapeOperationsNotAllowed` for a `WRITE`) unreachable. -/
def processNFATransitions (states alphabet : List String) (src : String) :
    List (SKey × List String) → List TransitionInfo → Except NFAVErr (List (SKey × List String))
  | acc, [] => .ok acc
  | acc, tr :: ts =>
    if tr.fromT.withStackSymbol.isSome || tr.toT.stackOp.isSome then
      .error .stackOperationsNotAllowed
    else
      match tr.toT.stackOp with
      | some (.push _) | some .pop | some .noop => .error .stackOperationsNotAllowed
      | some (.write _) => .error .tapeOperationsNotAllowed
      | none =>
        if tr.toT.direction.isSome then .error .tapeOperationsNotAllowed
        else
          let fromS := resolve src tr.fromT.initial
          let sym := resolve src tr.fromT.withSymbol
          let toS := resolve src tr.toT.state
          if fromS ∉ states then .error (.unknownState tr.fromT.initial.span)
          else if toS ∉ states then .error (.unknownState tr.toT.state.span)
          else if sym ∉ alphabet then .error (.unknownAlphabetSymbol tr.fromT.withSymbol.span)
          else processNFATransitions states alphabet src (nfaInsert acc ⟨fromS, sym⟩ toS) ts

/-- Mirrors `nfa::Info::new` (the reserved symbol `ε` is added to the
alphabet after the declared symbols). -/
def nfaInfoNew (m : PartialMachineInfo) (src : String) : Except NFAVErr NFAInfo :=
  if m.stackAlphabet.isSome || m.startStack.isSome then .error .stackOperationsNotAllowed
  else if m.tapeAlphabet.isSome || m.blankSymbol.isSome then .error .tapeOperationsNotAllowed
  else
    let states := resolveAll src m.states
    let alphabet := resolveAll src m.alphabet ++ ["ε"]
    match checkStatesList states src m.finalStates with
    | .error sp => .error (.unknownState sp)
    | .ok finals =>
      if resolve src m.startState ∈ states then
        match processNFATransitions states alphabet src [] m.transitions with
        | .error e => .error e
        | .ok table => .ok ⟨alphabet, table, resolve src m.startState, finals⟩
      else .error (.unknownState m.startState.span)

/-- The ε-successors of a state (`info.transitions.get(&(state, "ε"))`,
empty when absent). -/
def epsilonTargets (trans : List (SKey × List String)) (s : String) : List String :=
  (lookupKV trans ⟨s, "ε"⟩).getD []

/-- The inner loop of `compute_epsilon_closure`: for each target not yet
in the closure, insert it and push it onto the work stack. -/
def addTargets : List String → List String → List String → List String × List String
  | closure, stack, [] => (closure, stack)
  | closure, stack, t :: ts =>
    if t ∈ closure then addTargets closure stack ts
    else addTargets (t :: closure) (t :: stack) ts

/-- The worklist loop of `compute_epsilon_closure`.  Fuel only guards
Lean-side termination; `closureFuel` below always suffices (proved in the
closure theorems). -/
def closureAux (trans : List (SKey × List String)) : Nat → List String → List String → List String
  | 0, closure, _ => closure
  | _ + 1, closure, [] => closure
  | fuel + 1, closure, st :: rest =>
    let p := addTargets closure rest (epsilonTargets trans st)
    closureAux trans fuel p.1 p.2

/-- Every target appearing anywhere in the transition table. -/
def allTargets (trans : List (SKey × List String)) : List String :=
  (trans.map (·.2)).flatten

/-- Fuel bound for the worklist loop: initial stack size plus the number
of distinct insertable states, plus one. -/
def closureFuel (trans : List (SKey × List String)) (states : List String) : Nat :=
  states.length + (allTargets trans).dedup.length + 1

/-- Mirrors `nfa::Machine::compute_epsilon_closure` (closure initialised
to the argument set, stack to the same states). -/
def computeEpsilonClosure (trans : List (SKey × List String)) (states : List String) : List String :=
  closureAux trans (closureFuel trans states) states states

/-- PDA transition key (mirrors `PDATransitionFrom`). -/
structure PDAKey where
  initial : String
  withSymbol : String
  stackTop : Option String
deriving DecidableEq, Repr

/-- Mirrors `pda::StackAction`. -/
inductive StackAction where
  | push (s : String)
  | pop
  | noop
deriving DecidableEq, Repr

/-- Mirrors `PDATransitionTo`. -/
structure PDATo where
  state : String
  stackAction : StackAction
deriving DecidableEq, Repr

/-- Validated PDA `Info`. -/
structure PDAInfo where
  alphabet : List String
  stackAlphabet : List String
  transitions : List (PDAKey × List PDATo)
  startState : String
  finalStates : List String
  startStackSymbol : Option String
deriving DecidableEq, Repr

/-- `self.stack.back()`: the top of the stack, which lives at the END of
the list (push_back / pop_back discipline of the `VecDeque`). -/
def stackTopOf (stack : List String) : Option String :=
  stack.getLast?

/-- The stack update of `make_transition`; a pop on an empty stack is the
original's guarded no-op. -/
def applyStackAction : StackAction → List String → List String
  | .push s, st => st ++ [s]
  | .pop, st => if st.isEmpty then st else st.dropLast
  | .noop, st => st

/-- The collection loops of `make_transition`: all destination lists of
table entries whose key equals `k`, concatenated (a `HashMap` holds at
most one entry per key, so at most one list contributes). -/
def collectMatching (trans : List (PDAKey × List PDATo)) (k : PDAKey) : List PDATo :=
  (trans.filter (fun kv => decide (kv.1 = k))).flatMap (·.2)

/-- Mirrors `pda::Machine::make_transition`: specific-stack-top entries
first, wildcard entries only if none matched, then apply the first
matching transition; `none` models `return false`. -/
def makeTransition (info : PDAInfo) (current symbol : String) (stack : List String) :
    Option (String × List String) :=
  let specific :=
    match stackTopOf stack with
    | some top => collectMatching info.transitions ⟨current, symbol, some top⟩
    | none => []
  let matching :=
    if specific.isEmpty then collectMatching info.transitions ⟨current, symbol, none⟩
    else specific
  match matching with
  | [] => none
  | tr :: _ => some (tr.state, applyStackAction tr.stackAction stack)

/-- TM validation errors (mirrors `tm::InfoError`). -/
inductive TMVErr where
  | unknownState (here : Span)
  | unknownTapeSymbol (here : Span)
  | missingSection (sec : String)
  | missingTapeOperation
deriving DecidableEq, Repr

/-- TM transition key (mirrors `TMTransitionFrom`). -/
structure TMKey where
  initial : String
  withSymbol : String
deriving DecidableEq, Repr

/-- Mirrors `tm::Direction`. -/
inductive TMDir where
  | left
  | right
deriving DecidableEq, Repr

/-- Mirrors `TMTransitionTo`. -/
structure TMTo where
  state : String
  writeSymbol : String
  direction : TMDir
deriving DecidableEq, Repr

/-- Validated TM `Info`. -/
structure TMInfo where
  alphabet : List String
  transitions : List (TMKey × TMTo)
  startState : String
  finalStates : List String
  blankSymbol : String
deriving DecidableEq, Repr

/-- `HashMap::insert`: bind `k` to `v`, silently replacing any previous
binding for the same key. -/
def mapInsert {κ β : Type} [DecidableEq κ] (l : List (κ × β)) (k : κ) (v : β) : List (κ × β) :=
  (k, v) :: l.filter (fun kv => decide (kv.1 ≠ k))

/-- Parser direction to TM direction (mirrors the match in `tm::Info::new`). -/
def dirOf : Dir → TMDir
  | .left => .left
  | .right => .right

/-- The table key a raw transition resolves to. -/
def tmKeyOf (src : String) (t : TransitionInfo) : TMKey :=
  ⟨resolve src t.fromT.initial, resolve src t.fromT.withSymbol⟩

/-- The table value a raw transition resolves to (defaults are irrelevant:
under `tmTransOk` the write symbol and direction are always present). -/
def tmToOf (src : String) (t : TransitionInfo) : TMTo :=
  ⟨resolve src t.toT.state,
   (match t.toT.stackOp with
    | some (.write w) => resolve src w
    | _ => ""),
   (match t.toT.direction with
    | some d => dirOf d
    | none => .right)⟩

/-- The transition loop of `tm::Info::new`: check states, tape symbols,
the mandatory `WRITE` operation and direction, then `HashMap::insert`
(silently overwriting an earlier entry with the same key). -/
def processTMTransitions (states tapeAlph : List String) (src : String) :
    List (TMKey × TMTo) → List TransitionInfo → Except TMVErr (List (TMKey × TMTo))
  | acc, [] => .ok acc
  | acc, tr :: ts =>
    let fromS := resolve src tr.fromT.initial
    if fromS ∉ states then .error (.unknownState tr.fromT.initial.span)
    else
      let sym := resolve src tr.fromT.withSymbol
      if sym ≠ "ε" ∧ sym ∉ tapeAlph then .error (.unknownTapeSymbol tr.fromT.withSymbol.span)
      else
        let toS := resolve src tr.toT.state
        if toS ∉ states then .error (.unknownState tr.toT.state.span)
        else
          match tr.toT.stackOp with
          | some (.write w) =>
            if resolve src w ∉ tapeAlph then .error (.unknownTapeSymbol w.span)
            else
              match tr.toT.direction with
              | some d =>
                processTMTransitions states tapeAlph src
                  (mapInsert acc ⟨fromS, sym⟩ ⟨toS, resolve src w, dirOf d⟩) ts
              | none => .error (.missingSection "direction")
          | some _ => .error .missingTapeOperation
          | none => .error .missingTapeOperation

/-- Mirrors `tm::Info::new`.  (The original's final-state check iterates a
hash set and reports the span of a token resolving to the first bad
state found; which bad state is reported is hash-order dependent there, so
this embedding reports the first in declaration order — identical whenever
validation succeeds.) -/
def tmInfoNew (m : PartialMachineInfo) (src : String) : Except TMVErr TMInfo :=
  let states := resolveAll src m.states
  match m.tapeAlphabet with
  | none => .error (.missingSection "tape_alphabet")
  | some tl =>
    let tapeAlph := resolveAll src tl
    match m.blankSymbol with
    | none => .error (.missingSection "blank_symbol")
    | some btok =>
      match checkStatesList states src m.finalStates with
      | .error sp => .error (.unknownState sp)
      | .ok finals =>
        if resolve src m.startState ∈ states then
          match processTMTransitions states tapeAlph src [] m.transitions with
          | .error e => .error e
          | .ok table =>
            .ok ⟨resolveAll src m.alphabet, table, resolve src m.startState, finals,
                 resolve src btok⟩
        else .error (.unknownState m.startState.span)

/-- Per-transition success condition of the TM validator's transition
loop (exactly its guards, in particular *no* duplicate-key condition). -/
def tmTransOk (states tapeAlph : List String) (src : String) (t : TransitionInfo) : Bool :=
  decide (resolve src t.fromT.initial ∈ states) &&
  (decide (resolve src t.fromT.withSymbol = "ε") ||
     decide (resolve src t.fromT.withSymbol ∈ tapeAlph)) &&
  decide (resolve src t.toT.state ∈ states) &&
  (match t.toT.stackOp with
   | some (.write w) => decide (resolve src w ∈ tapeAlph)
   | _ => false) &&
  t.toT.direction.isSome

/-- Success condition of the whole TM validator, stated from the
description: all sections present and all referenced names declared.
Deliberately says nothing about duplicate transition keys. -/
def tmWellFormed (m : PartialMachineInfo) (src : String) : Bool :=
  m.tapeAlphabet.isSome &&
  m.blankSymbol.isSome &&
  m.finalStates.all (fun f => decide (resolve src f ∈ resolveAll src m.states)) &&
  decide (resolve src m.startState ∈ resolveAll src m.states) &&
  m.transitions.all
    (tmTransOk (resolveAll src m.states) (resolveAll src (m.tapeAlphabet.getD [])) src)

/-- The last transition of a list resolving to key `k`, if any. -/
def lastKeyed (src : String) (k : TMKey) : List TransitionInfo → Option TransitionInfo
  | [] => none
  | t :: ts =>
    match lastKeyed src k ts with
    | some u => some u
    | none => if tmKeyOf src t = k then some t else none

/-- Mirrors `tm::Tape`. -/
structure Tape where
  tape : List String
  position : Nat
  blankSymbol : String
deriving DecidableEq, Repr

/-- Mirrors `Tape::new`: one blank cell, cursor at 0. -/
def Tape.new (blank : String) : Tape :=
  ⟨[blank], 0, blank⟩

/-- Mirrors `Tape::get_current_symbol`. -/
def Tape.getCurrentSymbol (t : Tape) : String :=
  t.tape.getD t.position t.blankSymbol

/-- Mirrors `Tape::write_symbol`: resize with blanks when the cursor is
past the end, then assign the cell under the cursor. -/
def Tape.writeSymbol (t : Tape) (s : String) : Tape :=
  let resized :=
    if t.tape.length ≤ t.position then
      t.tape ++ List.replicate (t.position + 1 - t.tape.length) t.blankSymbol
    else t.tape
  { t with tape := resized.set t.position s }

/-- Mirrors `Tape::move_left`. -/
def Tape.moveLeft (t : Tape) : Tape :=
  if 0 < t.position then { t with position := t.position - 1 }
  else { t with tape := t.blankSymbol :: t.tape }

/-- Mirrors `Tape::move_right`. -/
def Tape.moveRight (t : Tape) : Tape :=
  if t.tape.length ≤ t.position + 1 then
    { t with position := t.position + 1, tape := t.tape ++ [t.blankSymbol] }
  else { t with position := t.position + 1 }

/-- The input-initialisation loop of `tm::Machine::run`: write each input
symbol and move right. -/
def writeInput : Tape → List String → Tape
  | t, [] => t
  | t, s :: rest => writeInput ((t.writeSymbol s).moveRight) rest

/-- `while tape.position > 0 { tape.move_left() }`: exactly `position`
iterations, each decrementing the cursor. -/
def rewindAux : Nat → Tape → Tape
  | 0, t => t
  | n + 1, t => rewindAux n t.moveLeft

/-- Cursor reset after writing the input. -/
def rewind (t : Tape) : Tape :=
  rewindAux t.position t

/-- The tape as `tm::Machine::run` initialises it from the input string
(each character becomes a one-character symbol). -/
def tmInitTape (blank : String) (input : String) : Tape :=
  rewind (writeInput (Tape.new blank) (input.data.map (fun c => String.singleton c)))

/-- The main loop of `tm::Machine::run`: look up `(state, current symbol)`;
absent → halt rejecting; otherwise write, move, switch state, and accept
as soon as the new state is final.  Fuel models the unbounded loop:
`none` means the loop has not halted within `fuel` steps. -/
def tmLoop (info : TMInfo) : Nat → String → Tape → Option Bool
  | 0, _, _ => none
  | fuel + 1, current, tape =>
    match lookupKV info.transitions ⟨current, tape.getCurrentSymbol⟩ with
    | none => some false
    | some tr =>
      let tape2 := tape.writeSymbol tr.writeSymbol
      let tape3 :=
        match tr.direction with
        | .left => tape2.moveLeft
        | .right => tape2.moveRight
      if tr.state ∈ info.finalStates then some true
      else tmLoop info fuel tr.state tape3

/-- Mirrors `tm::Machine::run`, up to `fuel` transition steps. -/
def tmRun (info : TMInfo) (input : String) (fuel : Nat) : Option Bool :=
  tmLoop info fuel info.startState (tmInitTape info.blankSymbol input)

/-! Concrete descriptions used to witness the theorems below. -/

/-- Source buffer for the small DFA/NFA descriptions. -/
def src0 : String := "q0 a"

/-- Token `q0` in `src0`. -/
def tQ0 : Token := ⟨.identifier, ⟨0, 2⟩⟩

/-- Token `a` in `src0`. -/
def tA : Token := ⟨.identifier, ⟨3, 1⟩⟩

/-- A complete one-state DFA description: state `q0`, alphabet `a`,
transition `q0(a) => (q0)`, start and final `q0`. -/
def m0 : PartialMachineInfo :=
  ⟨[tQ0], [tA], [⟨⟨tQ0, tA, none⟩, ⟨tQ0, none, none⟩⟩], tQ0, [tQ0], none, none, none, none⟩

/-- The validated `Info` that `dfaInfoNew m0 src0` produces. -/
def dfaInfo0 : DFAInfo :=
  ⟨["a"], [(⟨"q0", "a"⟩, "q0")], "q0", ["q0"]⟩

/-- Like `m0` but whose only transition carries a `WRITE` (tape write)
operation: `q0(a) => (q0, WRITE:a)`; no stack or tape section present. -/
def m7 : PartialMachineInfo :=
  ⟨[tQ0], [tA], [⟨⟨tQ0, tA, none⟩, ⟨tQ0, some (.write tA), none⟩⟩], tQ0, [tQ0],
   none, none, none, none⟩

/-- Source buffer for the TM description. -/
def src6 : String := "q0 qf 0 1 B"

/-- Token `qf` in `src6`. -/
def tQF : Token := ⟨.identifier, ⟨3, 2⟩⟩

/-- Token `0` in `src6`. -/
def t0 : Token := ⟨.identifier, ⟨6, 1⟩⟩

/-- Token `1` in `src6`. -/
def t1 : Token := ⟨.identifier, ⟨8, 1⟩⟩

/-- Token `B` in `src6`. -/
def tB : Token := ⟨.identifier, ⟨10, 1⟩⟩

/-- Transition `q0(0) => (qf, WRITE:1, RIGHT)` — the earlier declaration. -/
def tmTr1 : TransitionInfo := ⟨⟨tQ0, t0, none⟩, ⟨tQF, some (.write t1), some .right⟩⟩

/-- Transition `q0(0) => (q0, WRITE:0, LEFT)` — the later declaration with
the same `(q0, 0)` key. -/
def tmTr2 : TransitionInfo := ⟨⟨tQ0, t0, none⟩, ⟨tQ0, some (.write t0), some .left⟩⟩

/-- A TM description containing two transitions with the same
`(from-state, tape symbol)` key. -/
def m6 : PartialMachineInfo :=
  ⟨[tQ0, tQF], [t0, t1], [tmTr1, tmTr2], tQ0, [tQF], none, none,
   some [t0, t1, tB], some tB⟩

/-- A PDA `Info` with both a specific-top entry `(s, a, Z)` and a wildcard
entry `(s, a, _)` for the same state and symbol. -/
def pdaInfo5 : PDAInfo :=
  ⟨["a"], ["Z", "A"],
   [(⟨"s", "a", some "Z"⟩, [⟨"s1", .push "A"⟩]), (⟨"s", "a", none⟩, [⟨"s2", .pop⟩])],
   "s", ["s"], some "Z"⟩

/-- A TM `Info` whose start state is final but whose table is empty. -/
def tmInfo0 : TMInfo := ⟨[], [], "q0", ["q0"], "B"⟩

/-- A one-ε-step NFA transition table (`p --ε--> q`). -/
def nfaTrans0 : List (SKey × List String) := [(⟨"p", "ε"⟩, ["q"])]

/-- Number of elements of `U` not yet in `c` — the potential used to show
the worklist fuel suffices. -/
def missingCount (U c : List String) : Nat :=
  (U.filter (fun x => decide (x ∉ c))).length

end FlaLab

/-- Claim C1 (code evaluated at the failing input): on a source whose
`states` section header appears twice, `parse` does NOT return a
duplicate-section error — it succeeds, and the second `[states]` body
silently overwrites the first (the resolved states list is `["q1"]`,
the body of the second section).  The duplicate check compares tokens by
kind *and* span, and two occurrences of a section name necessarily have
different spans, so the check can never fire on lexed input. -/
theorem c1_duplicate_section_not_reported :
    FlaLab.presIsOk FlaLab.c1parsed = true ∧ FlaLab.c1statesResolved = ["q1"] :=
  ⟨rfl, rfl⟩

/-- Claim C3 (code evaluated at the failing input): lexing the
one-character input `=` does not produce the unexpected-end-of-input
lexical error; it reaches `tokens.last().unwrap()` with an empty token
vector, i.e. the code panics. -/
theorem c3_lex_of_lone_equals_panics :
    FlaLab.lexFn "=" = FlaLab.LexResult.panicked := rfl

namespace FlaLab

/-- Claim C5: during PDA execution, when the stack is non-empty (top
element `top`) and the table has matching entries keyed to
`(current, symbol, Some top)`, `make_transition` applies exactly the first
such specific-top transition — wildcard (no-stack-top-requirement) entries
are never consulted in that case. -/
theorem c5_pda_specific_top_preferred (info : PDAInfo) (current symbol top : String)
    (rest : List String)
    (hspec : collectMatching info.transitions ⟨current, symbol, some top⟩ ≠ []) :
    makeTransition info current symbol (rest ++ [top]) =
      (collectMatching info.transitions ⟨current, symbol, some top⟩).head?.map
        (fun tr => (tr.state, applyStackAction tr.stackAction (rest ++ [top]))) := by
  have htop : stackTopOf (rest ++ [top]) = some top := by
    simp [stackTopOf]
  cases hs : collectMatching info.transitions ⟨current, symbol, some top⟩ with
  | nil => exact absurd hs hspec
  | cons tr l => simp [makeTransition, htop, hs]

/-- Witness for C5: in a table holding both a specific-top entry
`(s, a, Z) → (s1, PUSH:A)` and a wildcard entry `(s, a, _) → (s2, POP)`,
the specific entry fires on stack `[Z]`. -/
theorem c5_witness :
    makeTransition pdaInfo5 "s" "a" ([] ++ ["Z"]) = some ("s1", ["Z", "A"]) := by
  rw [c5_pda_specific_top_preferred pdaInfo5 "s" "a" "Z" [] (by decide)]
  rfl

/-- Claim C9: applying a transition whose stack action is `Pop` while the
stack is empty is a no-op on the stack (no underflow, no error): the
result is `some` (execution continues) with the destination state and a
still-empty stack. -/
theorem c9_pda_pop_empty_stack_noop (info : PDAInfo) (current symbol : String)
    (tr : PDATo) (l : List PDATo)
    (hw : collectMatching info.transitions ⟨current, symbol, none⟩ = tr :: l)
    (hpop : tr.stackAction = .pop) :
    makeTransition info current symbol [] = some (tr.state, []) := by
  simp [makeTransition, stackTopOf, hw, hpop, applyStackAction]

/-- Witness for C9: the wildcard POP entry of `pdaInfo5` fires on the
empty stack and leaves it empty. -/
theorem c9_witness :
    makeTransition pdaInfo5 "s" "a" [] = some ("s2", []) :=
  c9_pda_pop_empty_stack_noop pdaInfo5 "s" "a" ⟨"s2", .pop⟩ [] (by decide) rfl

/-- Claim C7 (code evaluated at the failing input): on a description with
no stack/tape section whose only transition carries a `WRITE` operation,
the NFA validator reports `StackOperationsNotAllowed` — not the
tape-operations error the DFA validator reports on the very same
description. -/
theorem c7_nfa_write_reports_stack_error :
    nfaInfoNew m7 src0 = .error NFAVErr.stackOperationsNotAllowed ∧
    dfaInfoNew m7 src0 = .error DFAVErr.tapeOperationsNotAllowed :=
  ⟨rfl, rfl⟩

/-- Claim C10: the TM accepts only by *taking a transition into* a final
state: when the table has no entry for the start state and the symbol
initially under the cursor, `run` returns `false` even though the start
state itself is final. -/
theorem c10_tm_no_entry_rejects_even_in_final_start (info : TMInfo) (input : String)
    (fuel : Nat)
    (_hfin : info.startState ∈ info.finalStates)
    (hmiss : lookupKV info.transitions
      ⟨info.startState, (tmInitTape info.blankSymbol input).getCurrentSymbol⟩ = none) :
    tmRun info input (fuel + 1) = some false := by
  simp [tmRun, tmLoop, hmiss]

/-- Witness for C10: a TM with final start state `q0` and an empty table
rejects the empty input. -/
theorem c10_witness : tmRun tmInfo0 "" 5 = some false :=
  c10_tm_no_entry_rejects_even_in_final_start tmInfo0 "" 4 (by decide) rfl

/-- Claim C8: tape frame/extension properties.  (1) Writing at a cursor
position at or past the end extends the tape to exactly `position + 1`
cells, preserves every previously written cell, fills the gap with the
blank symbol and puts the written symbol at the cursor.  (2) Reading at a
position past the end yields the blank symbol.  (3) Moving left at
position 0 inserts one blank at the front and keeps the cursor at the new
front.  (4) Moving right to or past the end appends exactly one blank
cell.  (5) Moving right strictly inside the tape leaves the cells
untouched. -/
theorem c8_tape_extension_properties (t : Tape) (s : String) :
    (t.tape.length ≤ t.position →
       (t.writeSymbol s).tape.length = t.position + 1 ∧
       (∀ i, i < t.tape.length → (t.writeSymbol s).tape.getD i "" = t.tape.getD i "") ∧
       (∀ i, t.tape.length ≤ i → i < t.position →
          (t.writeSymbol s).tape.getD i "" = t.blankSymbol) ∧
       (t.writeSymbol s).tape.getD t.position "" = s) ∧
    (t.tape.length ≤ t.position → t.getCurrentSymbol = t.blankSymbol) ∧
    (t.position = 0 → t.moveLeft.tape = t.blankSymbol :: t.tape ∧ t.moveLeft.position = 0) ∧
    (t.tape.length ≤ t.position + 1 →
       t.moveRight.tape = t.tape ++ [t.blankSymbol] ∧
       t.moveRight.position = t.position + 1) ∧
    (t.position + 1 < t.tape.length →
       t.moveRight.tape = t.tape ∧ t.moveRight.position = t.position + 1) := by
  refine ⟨?_, ?_, ?_, ?_, ?_⟩
  · intro h
    have hlen : ((t.tape ++ List.replicate (t.position + 1 - t.tape.length) t.blankSymbol).set
        t.position s).length = t.position + 1 := by
      simp [List.length_set, List.length_append, List.length_replicate]
      omega
    refine ⟨by simp [Tape.writeSymbol, h, hlen]; omega, ?_, ?_, ?_⟩
    · intro i hi
      simp only [Tape.writeSymbol, if_pos h]
      rw [List.getD_eq_getElem?_getD, List.getD_eq_getElem?_getD,
          List.getElem?_set_ne (by omega), List.getElem?_append_left hi]
    · intro i hi1 hi2
      simp only [Tape.writeSymbol, if_pos h]
      rw [List.getD_eq_getElem?_getD, List.getElem?_set_ne (by omega),
          List.getElem?_append_right hi1, List.getElem?_replicate_of_lt (by omega)]
      rfl
    · simp only [Tape.writeSymbol, if_pos h]
      rw [List.getD_eq_getElem?_getD, List.getElem?_set_self (by simp; omega)]
      rfl
  · intro h
    simp [Tape.getCurrentSymbol, List.getD_eq_getElem?_getD, List.getElem?_eq_none h]
  · intro h
    simp [Tape.moveLeft, h]
  · intro h
    simp [Tape.moveRight, h]
  · intro h
    simp [Tape.moveRight, Nat.not_le.mpr h]

/-- Unfolding equation of the worklist loop. -/
theorem closureAux_cons (trans : List (SKey × List String)) (fuel : Nat)
    (closure st : _) (rest : List String) :
    closureAux trans (fuel + 1) closure (st :: rest) =
      closureAux trans fuel (addTargets closure rest (epsilonTargets trans st)).1
        (addTargets closure rest (epsilonTargets trans st)).2 := rfl

/-- `addTargets` never removes anything from the closure. -/
theorem addTargets_mem_closure (ts : List String) :
    ∀ (c s : List String) (x : String), x ∈ c → x ∈ (addTargets c s ts).1 := by
  induction ts with
  | nil => intro c s x hx; exact hx
  | cons t ts ih =>
    intro c s x hx
    by_cases ht : t ∈ c
    · simpa [addTargets, ht] using ih c s x hx
    · simpa [addTargets, ht] using ih (t :: c) (t :: s) x (List.mem_cons_of_mem t hx)

/-- `addTargets` never removes anything from the stack. -/
theorem addTargets_mem_stack (ts : List String) :
    ∀ (c s : List String) (x : String), x ∈ s → x ∈ (addTargets c s ts).2 := by
  induction ts with
  | nil => intro c s x hx; exact hx
  | cons t ts ih =>
    intro c s x hx
    by_cases ht : t ∈ c
    · simpa [addTargets, ht] using ih c s x hx
    · simpa [addTargets, ht] using ih (t :: c) (t :: s) x (List.mem_cons_of_mem t hx)

/-- Every processed target ends up in the closure. -/
theorem addTargets_mem_of_target (ts : List String) :
    ∀ (c s : List String) (x : String), x ∈ ts → x ∈ (addTargets c s ts).1 := by
  induction ts with
  | nil => intro c s x hx; cases hx
  | cons t ts ih =>
    intro c s x hx
    by_cases ht : t ∈ c
    · rcases List.mem_cons.mp hx with rfl | hx2
      · simpa [addTargets, ht] using addTargets_mem_closure ts c s x ht
      · simpa [addTargets, ht] using ih c s x hx2
    · rcases List.mem_cons.mp hx with rfl | hx2
      · simpa [addTargets, ht] using
          addTargets_mem_closure ts (x :: c) (x :: s) x (List.mem_cons_self x c)
      · simpa [addTargets, ht] using ih (t :: c) (t :: s) x hx2

/-- A closure member after `addTargets` was already there or is on the
new stack (inserted elements go to both). -/
theorem addTargets_mem_orig_or_stack (ts : List String) :
    ∀ (c s : List String) (x : String),
      x ∈ (addTargets c s ts).1 → x ∈ c ∨ x ∈ (addTargets c s ts).2 := by
  induction ts with
  | nil => intro c s x hx; exact Or.inl hx
  | cons t ts ih =>
    intro c s x hx
    by_cases ht : t ∈ c
    · simp only [addTargets, if_pos ht] at hx ⊢
      exact ih c s x hx
    · simp only [addTargets, if_neg ht] at hx ⊢
      rcases ih (t :: c) (t :: s) x hx with hc | hs
      · rcases List.mem_cons.mp hc with rfl | hc2
        · exact Or.inr (addTargets_mem_stack ts (x :: c) (x :: s) x (List.mem_cons_self x s))
        · exact Or.inl hc2
      · exact Or.inr hs

/-- When every target is already in the closure, `addTargets` is the
identity. -/
theorem addTargets_id_of_subset (ts : List String) :
    ∀ (c s : List String), (∀ x ∈ ts, x ∈ c) → addTargets c s ts = (c, s) := by
  induction ts with
  | nil => intro c s _; rfl
  | cons t ts ih =>
    intro c s h
    have ht : t ∈ c := h t (List.mem_cons_self t ts)
    simpa [addTargets, ht] using ih c s (fun x hx => h x (List.mem_cons_of_mem t hx))

/-- Inserting a genuinely new element of `U` decreases the missing count
by exactly one. -/
theorem missingCount_insert (t : String) (c : List String) :
    ∀ U : List String, U.Nodup → t ∈ U → t ∉ c →
      missingCount U (t :: c) + 1 = missingCount U c := by
  intro U
  induction U with
  | nil => intro _ hU; cases hU
  | cons u U ih =>
    intro hnd hU hc
    obtain ⟨hu, hnd2⟩ := List.nodup_cons.mp hnd
    rcases List.mem_cons.mp hU with rfl | hU2
    · have hfU : U.filter (fun x => decide (x ∉ t :: c)) = U.filter (fun x => decide (x ∉ c)) := by
        apply List.filter_congr
        intro x hx
        have hxt : x ≠ t := fun h => hu (h ▸ hx)
        simp [List.mem_cons, hxt]
      unfold missingCount
      rw [List.filter_cons, List.filter_cons,
          if_neg (by simp : ¬(decide (t ∉ t :: c) = true)),
          if_pos (by simp [hc] : decide (t ∉ c) = true), hfU]
      simp
    · have hut : u ∉ t :: c ↔ u ∉ c := by
        have hne : u ≠ t := fun h => hu (h ▸ hU2)
        simp [List.mem_cons, hne]
      have := ih hnd2 hU2 hc
      by_cases huc : u ∉ c
      · simp only [missingCount, List.filter_cons] at this ⊢
        simp [huc, hut.mpr huc] at this ⊢
        omega
      · simp only [missingCount, List.filter_cons] at this ⊢
        have : u ∈ c := not_not.mp huc
        simp_all [missingCount]

/-- The worklist potential (missing count plus stack length) is preserved
by `addTargets` when every target lies in the nodup universe `U`. -/
theorem addTargets_potential (U : List String) (hnd : U.Nodup) (ts : List String) :
    ∀ (c s : List String), (∀ t ∈ ts, t ∈ U) →
      missingCount U (addTargets c s ts).1 + (addTargets c s ts).2.length =
        missingCount U c + s.length := by
  induction ts with
  | nil => intro c s _; rfl
  | cons t ts ih =>
    intro c s hU
    by_cases ht : t ∈ c
    · simpa [addTargets, ht] using ih c s (fun x hx => hU x (List.mem_cons_of_mem t hx))
    · have h1 := ih (t :: c) (t :: s) (fun x hx => hU x (List.mem_cons_of_mem t hx))
      have h2 := missingCount_insert t c U hnd (hU t (List.mem_cons_self t ts)) ht
      simp only [addTargets, if_neg ht]
      rw [h1]
      simp only [List.length_cons]
      omega

/-- The worklist loop never removes a closure member. -/
theorem closureAux_mono (trans : List (SKey × List String)) :
    ∀ (fuel : Nat) (c s : List String) (x : String),
      x ∈ c → x ∈ closureAux trans fuel c s := by
  intro fuel
  induction fuel with
  | zero => intro c s x hx; exact hx
  | succ fuel ih =>
    intro c s x hx
    cases s with
    | nil => exact hx
    | cons st rest =>
      rw [closureAux_cons]
      exact ih _ _ x (addTargets_mem_closure _ _ _ x hx)

/-- A looked-up value is one of the table's value lists. -/
theorem lookupKV_mem_values {κ β : Type} [DecidableEq κ] :
    ∀ (l : List (κ × β)) (k : κ) (v : β), lookupKV l k = some v → v ∈ l.map (·.2) := by
  intro l
  induction l with
  | nil => intro k v h; cases h
  | cons kv rest ih =>
    intro k v h
    simp only [lookupKV] at h
    by_cases hk : kv.1 = k
    · simp [hk] at h
      simp [h]
    · simp [hk] at h
      exact List.mem_cons_of_mem _ (ih k v h)

/-- Every ε-target lies in the deduplicated universe of all targets. -/
theorem epsTargets_mem_univ (trans : List (SKey × List String)) (s x : String) :
    x ∈ epsilonTargets trans s → x ∈ (allTargets trans).dedup := by
  intro hx
  unfold epsilonTargets at hx
  cases h : lookupKV trans ⟨s, "ε"⟩ with
  | none => rw [h] at hx; cases hx
  | some v =>
    rw [h] at hx
    simp only [Option.getD_some] at hx
    refine List.mem_dedup.mpr (List.mem_flatten.mpr ⟨v, ?_, hx⟩)
    exact lookupKV_mem_values trans _ v h

/-- With enough fuel (the potential), the worklist drains completely and
its result is ε-closed. -/
theorem closureAux_closed (trans : List (SKey × List String)) :
    ∀ (fuel : Nat) (c s : List String),
      missingCount (allTargets trans).dedup c + s.length ≤ fuel →
      (∀ x ∈ c, x ∈ s ∨ (∀ t ∈ epsilonTargets trans x, t ∈ c)) →
      ∀ x ∈ closureAux trans fuel c s,
        ∀ t ∈ epsilonTargets trans x, t ∈ closureAux trans fuel c s := by
  intro fuel
  induction fuel with
  | zero =>
    intro c s hfuel hinv x hx t htx
    have hs : s = [] := List.length_eq_zero.mp (by omega)
    subst hs
    rcases hinv x hx with h | h
    · cases h
    · exact h t htx
  | succ fuel ih =>
    intro c s hfuel hinv x hx t htx
    cases s with
    | nil =>
      rcases hinv x hx with h | h
      · cases h
      · exact h t htx
    | cons st rest =>
      rw [closureAux_cons] at hx ⊢
      have hpot := addTargets_potential (allTargets trans).dedup (List.nodup_dedup _)
        (epsilonTargets trans st) c rest
        (fun u hu => epsTargets_mem_univ trans st u hu)
      have hfuel2 : missingCount (allTargets trans).dedup
          (addTargets c rest (epsilonTargets trans st)).1 +
          (addTargets c rest (epsilonTargets trans st)).2.length ≤ fuel := by
        rw [hpot]
        simp only [List.length_cons] at hfuel
        omega
      refine ih _ _ hfuel2 ?_ x hx t htx
      intro y hy
      rcases addTargets_mem_orig_or_stack _ _ _ y hy with hyc | hys
      · rcases hinv y hyc with hstk | hcl
        · rcases List.mem_cons.mp hstk with rfl | hrest
          · exact Or.inr (fun u hu => addTargets_mem_of_target _ _ _ u hu)
          · exact Or.inl (addTargets_mem_stack _ _ _ y hrest)
        · exact Or.inr (fun u hu => addTargets_mem_closure _ _ _ u (hcl u hu))
      · exact Or.inl hys

/-- Running the worklist on an already ε-closed closure (with the stack a
subset of states whose targets are all in) returns the closure unchanged,
as the very same list. -/
theorem closureAux_fixed (trans : List (SKey × List String)) :
    ∀ (fuel : Nat) (c s : List String), s.length ≤ fuel →
      (∀ x ∈ s, ∀ t ∈ epsilonTargets trans x, t ∈ c) →
      closureAux trans fuel c s = c := by
  intro fuel
  induction fuel with
  | zero =>
    intro c s hfuel _
    have hs : s = [] := List.length_eq_zero.mp (by omega)
    subst hs
    rfl
  | succ fuel ih =>
    intro c s hfuel hcl
    cases s with
    | nil => rfl
    | cons st rest =>
      rw [closureAux_cons,
          addTargets_id_of_subset _ c rest (hcl st (List.mem_cons_self st rest))]
      exact ih c rest (by simpa using Nat.le_of_succ_le_succ hfuel)
        (fun x hx => hcl x (List.mem_cons_of_mem st hx))

/-- Claim C4: the ε-closure computation only ever adds states
(`S ⊆ closure(S)`), and it is idempotent
(`closure(closure(S)) = closure(S)`, even as plain list equality). -/
theorem c4_epsilon_closure_extensive_idempotent
    (trans : List (SKey × List String)) (S : List String) :
    (∀ x ∈ S, x ∈ computeEpsilonClosure trans S) ∧
    computeEpsilonClosure trans (computeEpsilonClosure trans S) =
      computeEpsilonClosure trans S := by
  constructor
  · intro x hx
    exact closureAux_mono trans _ S S x hx
  · have hclosed : ∀ x ∈ computeEpsilonClosure trans S,
        ∀ t ∈ epsilonTargets trans x, t ∈ computeEpsilonClosure trans S := by
      apply closureAux_closed
      · have hle : missingCount (allTargets trans).dedup S ≤ (allTargets trans).dedup.length :=
          List.length_filter_le _ _
        simp only [closureFuel]
        omega
      · intro x hx
        exact Or.inl hx
    apply closureAux_fixed
    · simp only [closureFuel]
      omega
    · exact hclosed

/-- Witness for C4 at a concrete one-ε-step table and state set. -/
theorem c4_witness :
    ("p" ∈ computeEpsilonClosure nfaTrans0 ["p"]) ∧
    computeEpsilonClosure nfaTrans0 (computeEpsilonClosure nfaTrans0 ["p"]) =
      computeEpsilonClosure nfaTrans0 ["p"] :=
  ⟨(c4_epsilon_closure_extensive_idempotent nfaTrans0 ["p"]).1 "p" (by simp),
   (c4_epsilon_closure_extensive_idempotent nfaTrans0 ["p"]).2⟩

/-- `HashMap::insert` then `get`: the new binding for the inserted key,
the old ones elsewhere (first the filtered tail is transparent to other
keys). -/
theorem lookupKV_filter_ne {κ β : Type} [DecidableEq κ] (k k2 : κ) (hne : k2 ≠ k) :
    ∀ l : List (κ × β),
      lookupKV (l.filter (fun kv => decide (kv.1 ≠ k))) k2 = lookupKV l k2 := by
  intro l
  induction l with
  | nil => rfl
  | cons kv rest ih =>
    by_cases hk : kv.1 = k
    · have h2 : ¬ kv.1 = k2 := by rw [hk]; exact fun h => hne h.symm
      rw [List.filter_cons, if_neg (by simp [hk]), lookupKV, if_neg h2]
      exact ih
    · rw [List.filter_cons, if_pos (by simp [hk])]
      by_cases h2 : kv.1 = k2
      · rw [lookupKV, if_pos h2, lookupKV, if_pos h2]
      · rw [lookupKV, if_neg h2, lookupKV, if_neg h2]
        exact ih

/-- Lookup after `mapInsert`. -/
theorem lookupKV_mapInsert {κ β : Type} [DecidableEq κ] (l : List (κ × β)) (k k2 : κ) (v : β) :
    lookupKV (mapInsert l k v) k2 = if k = k2 then some v else lookupKV l k2 := by
  by_cases h : k = k2
  · simp [mapInsert, lookupKV, h]
  · simp only [mapInsert, lookupKV, if_neg h]
    exact lookupKV_filter_ne k k2 (fun he => h he.symm) l

/-- Unfolding equation for `lastKeyed`. -/
theorem lastKeyed_cons (src : String) (k : TMKey) (t : TransitionInfo)
    (ts : List TransitionInfo) :
    lastKeyed src k (t :: ts) =
      (match lastKeyed src k ts with
       | some u => some u
       | none => if tmKeyOf src t = k then some t else none) := rfl

/-- No transition of the list has the key: `lastKeyed` finds nothing. -/
theorem lastKeyed_eq_none (src : String) (k : TMKey) :
    ∀ l : List TransitionInfo, (∀ t ∈ l, tmKeyOf src t ≠ k) → lastKeyed src k l = none := by
  intro l
  induction l with
  | nil => intro _; rfl
  | cons t ts ih =>
    intro h
    rw [lastKeyed_cons, ih (fun u hu => h u (List.mem_cons_of_mem t hu)),
        if_neg (h t (List.mem_cons_self t ts))]

/-- `lastKeyed` found in a suffix survives prefixing. -/
theorem lastKeyed_append (src : String) (k : TMKey) (u : TransitionInfo) :
    ∀ l1 l2 : List TransitionInfo, lastKeyed src k l2 = some u →
      lastKeyed src k (l1 ++ l2) = some u := by
  intro l1
  induction l1 with
  | nil => intro l2 h; exact h
  | cons t ts ih =>
    intro l2 h
    rw [List.cons_append, lastKeyed_cons, ih l2 h]

/-- The final-states loop succeeds when every final state is declared. -/
theorem checkStatesList_ok (states : List String) (src : String) :
    ∀ fs : List Token, (∀ f ∈ fs, resolve src f ∈ states) →
      checkStatesList states src fs = .ok (fs.map (resolve src)) := by
  intro fs
  induction fs with
  | nil => intro _; rfl
  | cons f fs ih =>
    intro h
    rw [checkStatesList, if_pos (h f (List.mem_cons_self f fs)),
        ih (fun u hu => h u (List.mem_cons_of_mem f hu))]
    rfl

/-- The TM transition loop under per-transition validity: it succeeds, and
the resulting table maps every key to the value of the *last* transition
declaring it (earlier ones silently overwritten), falling back to the
accumulator. -/
theorem processTMTransitions_ok (states tapeAlph : List String) (src : String) :
    ∀ (ts : List TransitionInfo) (acc : List (TMKey × TMTo)),
      (∀ t ∈ ts, tmTransOk states tapeAlph src t = true) →
      ∃ res, processTMTransitions states tapeAlph src acc ts = .ok res ∧
        ∀ k, lookupKV res k =
          (match lastKeyed src k ts with
           | some t => some (tmToOf src t)
           | none => lookupKV acc k) := by
  intro ts
  induction ts with
  | nil =>
    intro acc _
    exact ⟨acc, rfl, fun k => rfl⟩
  | cons t ts ih =>
    intro acc hall
    have htr := hall t (List.mem_cons_self t ts)
    simp only [tmTransOk, Bool.and_eq_true, Bool.or_eq_true, decide_eq_true_eq] at htr
    obtain ⟨⟨⟨⟨h1, h2⟩, h3⟩, h4⟩, h5⟩ := htr
    obtain ⟨d, hd⟩ := Option.isSome_iff_exists.mp h5
    cases hop : t.toT.stackOp with
    | none => rw [hop] at h4; cases h4
    | some op =>
      cases op with
      | push w => rw [hop] at h4; cases h4
      | pop => rw [hop] at h4; cases h4
      | noop => rw [hop] at h4; cases h4
      | write w =>
        rw [hop] at h4
        simp only [decide_eq_true_eq] at h4
        have hsym : ¬(resolve src t.fromT.withSymbol ≠ "ε" ∧
            resolve src t.fromT.withSymbol ∉ tapeAlph) := by
          rcases h2 with h2 | h2
          · exact fun hcon => hcon.1 h2
          · exact fun hcon => hcon.2 h2
        obtain ⟨res, hres, hlook⟩ :=
          ih (mapInsert acc (tmKeyOf src t) (tmToOf src t))
            (fun u hu => hall u (List.mem_cons_of_mem t hu))
        refine ⟨res, ?_, ?_⟩
        · rw [processTMTransitions, if_neg (not_not.mpr h1), if_neg hsym,
              if_neg (not_not.mpr h3), hop]
          simp only [if_neg (not_not.mpr h4), hd]
          have hv : (⟨resolve src t.toT.state, resolve src w, dirOf d⟩ : TMTo) =
              tmToOf src t := by
            simp [tmToOf, hop, hd]
          rw [hv]
          exact hres
        · intro k
          rw [hlook k, lastKeyed_cons]
          cases hlk : lastKeyed src k ts with
          | some u => rfl
          | none =>
            simp only [lookupKV_mapInsert]
            by_cases hk : tmKeyOf src t = k
            · rw [if_pos hk, if_pos hk]
            · rw [if_neg hk, if_neg hk]

/-- Claim C6: a description holding two transitions with the same
`(from-state, tape symbol)` key — and otherwise valid — passes TM
validation (no multiple-transitions error exists in the TM validator),
and the validated table maps that key to the *later* transition's
`(destination, write symbol, direction)`, the earlier one being silently
overwritten. -/
theorem c6_tm_duplicate_key_last_wins (m : PartialMachineInfo) (src : String)
    (l1 l2 l3 : List TransitionInfo) (t1 t2 : TransitionInfo)
    (hsplit : m.transitions = l1 ++ t1 :: l2 ++ t2 :: l3)
    (hwf : tmWellFormed m src = true)
    (_hkey : tmKeyOf src t1 = tmKeyOf src t2)
    (hlast : ∀ t ∈ l3, tmKeyOf src t ≠ tmKeyOf src t2) :
    ∃ info, tmInfoNew m src = .ok info ∧
      lookupKV info.transitions (tmKeyOf src t2) = some (tmToOf src t2) := by
  simp only [tmWellFormed, Bool.and_eq_true, List.all_eq_true, decide_eq_true_eq] at hwf
  obtain ⟨⟨⟨⟨hta, hbl⟩, hfin⟩, hst⟩, htrans⟩ := hwf
  obtain ⟨tl, htl⟩ := Option.isSome_iff_exists.mp hta
  obtain ⟨b, hb⟩ := Option.isSome_iff_exists.mp hbl
  obtain ⟨res, hres, hlook⟩ :=
    processTMTransitions_ok (resolveAll src m.states) (resolveAll src tl) src
      m.transitions []
      (by
        intro t ht
        have := htrans t ht
        rwa [htl] at this)
  have hfinals := checkStatesList_ok (resolveAll src m.states) src m.finalStates hfin
  refine ⟨⟨resolveAll src m.alphabet, res, resolve src m.startState,
          m.finalStates.map (resolve src), resolve src b⟩, ?_, ?_⟩
  · simp only [tmInfoNew, htl, hb, hfinals]
    rw [if_pos hst, hres]
  · rw [hlook (tmKeyOf src t2), hsplit]
    have h2 : lastKeyed src (tmKeyOf src t2) (t2 :: l3) = some t2 := by
      rw [lastKeyed_cons, lastKeyed_eq_none src _ l3 hlast, if_pos rfl]
    rw [lastKeyed_append src _ t2 (l1 ++ (t1 :: l2)) _ h2]

/-- A missing lookup means the key is not among the stored keys. -/
theorem lookupKV_none_not_mem {κ β : Type} [DecidableEq κ] :
    ∀ (l : List (κ × β)) (k : κ), lookupKV l k = none → k ∉ l.map Prod.fst := by
  intro l
  induction l with
  | nil => intro k _ hk; cases hk
  | cons kv rest ih =>
    intro k h hk
    rw [lookupKV] at h
    by_cases he : kv.1 = k
    · rw [if_pos he] at h; cases h
    · rw [if_neg he] at h
      rcases List.mem_cons.mp hk with he2 | hk2
      · exact he he2.symm
      · exact ih k h hk2

/-- A successful lookup returns a stored entry. -/
theorem lookupKV_mem {κ β : Type} [DecidableEq κ] :
    ∀ (l : List (κ × β)) (k : κ) (v : β), lookupKV l k = some v → (k, v) ∈ l := by
  intro l
  induction l with
  | nil => intro k v h; cases h
  | cons kv rest ih =>
    intro k v h
    rw [lookupKV] at h
    by_cases he : kv.1 = k
    · rw [if_pos he] at h
      injection h with h
      subst he
      subst h
      exact List.mem_cons_self kv rest
    · rw [if_neg he] at h
      exact List.mem_cons_of_mem kv (ih k v h)

/-- Keys absent from the list are counted zero times. -/
theorem countKey_eq_zero {κ β : Type} [DecidableEq κ] :
    ∀ (l : List (κ × β)) (k : κ), k ∉ l.map Prod.fst → countKey l k = 0 := by
  intro l
  induction l with
  | nil => intro k _; rfl
  | cons kv rest ih =>
    intro k hk
    have hne : ¬ kv.1 = k := fun he => hk (List.mem_cons.mpr (Or.inl he.symm))
    rw [countKey, List.filter_cons, if_neg (by simp [hne])]
    exact ih k (fun h2 => hk (List.mem_cons_of_mem _ h2))

/-- With pairwise-distinct keys, a key with a successful lookup occurs in
the table exactly once. -/
theorem countKey_eq_one {κ β : Type} [DecidableEq κ] :
    ∀ (l : List (κ × β)) (k : κ) (v : β),
      (l.map Prod.fst).Nodup → lookupKV l k = some v → countKey l k = 1 := by
  intro l
  induction l with
  | nil => intro k v _ h; cases h
  | cons kv rest ih =>
    intro k v hnd h
    obtain ⟨hknotin, hnd2⟩ := List.nodup_cons.mp (by rw [List.map_cons] at hnd; exact hnd)
    rw [lookupKV] at h
    by_cases he : kv.1 = k
    · rw [countKey, List.filter_cons, if_pos (by simp [he])]
      have h0 : countKey rest k = 0 :=
        countKey_eq_zero rest k (fun hmem => hknotin (by rw [he]; exact hmem))
      simp only [List.length_cons]
      rw [countKey] at h0
      omega
    · rw [if_neg he] at h
      rw [countKey, List.filter_cons, if_neg (by simp [he])]
      exact ih k v hnd2 h

/-- Facts provided by a successful run of the DFA transition loop: every
new table entry is over declared states and alphabet, and the table keys
remain pairwise distinct (the multiple-transitions check guards every
insertion). -/
theorem processDFA_ok_facts (states alphabet : List String) (src : String) :
    ∀ (ts : List TransitionInfo) (acc res : List (SKey × String)),
      processDFATransitions states alphabet src acc ts = .ok res →
      (∀ kv ∈ res, kv ∈ acc ∨
        (kv.1.initial ∈ states ∧ kv.1.withSymbol ∈ alphabet ∧ kv.2 ∈ states)) ∧
      ((acc.map Prod.fst).Nodup → (res.map Prod.fst).Nodup) := by
  intro ts
  induction ts with
  | nil =>
    intro acc res h
    simp only [processDFATransitions, Except.ok.injEq] at h
    subst h
    exact ⟨fun kv hkv => Or.inl hkv, id⟩
  | cons tr ts ih =>
    intro acc res h
    simp only [processDFATransitions] at h
    by_cases h1 : tr.fromT.withStackSymbol.isSome = true
    · rw [if_pos h1] at h; cases h
    · rw [if_neg h1] at h
      cases hop : tr.toT.stackOp with
      | some op => cases op <;> simp only [hop] at h <;> cases h
      | none =>
        simp only [hop] at h
        by_cases h2 : tr.toT.direction.isSome = true
        · rw [if_pos h2] at h; cases h
        · rw [if_neg h2] at h
          by_cases h3 : resolve src tr.fromT.initial ∉ states
          · rw [if_pos h3] at h; cases h
          · rw [if_neg h3] at h
            by_cases h4 : resolve src tr.toT.state ∉ states
            · rw [if_pos h4] at h; cases h
            · rw [if_neg h4] at h
              by_cases h5 : resolve src tr.fromT.withSymbol ∉ alphabet
              · rw [if_pos h5] at h; cases h
              · rw [if_neg h5] at h
                by_cases h6 : (lookupKV acc
                    ⟨resolve src tr.fromT.initial, resolve src tr.fromT.withSymbol⟩).isSome = true
                · rw [if_pos h6] at h; cases h
                · rw [if_neg h6] at h
                  obtain ⟨hmem, hnd⟩ := ih _ res h
                  refine ⟨?_, ?_⟩
                  · intro kv hkv
                    rcases hmem kv hkv with hacc | hgood
                    · rcases List.mem_cons.mp hacc with rfl | hacc2
                      · exact Or.inr ⟨not_not.mp h3, not_not.mp h5, not_not.mp h4⟩
                      · exact Or.inl hacc2
                    · exact Or.inr hgood
                  · intro hndacc
                    apply hnd
                    simp only [List.map_cons, List.nodup_cons]
                    refine ⟨?_, hndacc⟩
                    have hnone : lookupKV acc
                        (⟨resolve src tr.fromT.initial, resolve src tr.fromT.withSymbol⟩ : SKey) = none := by
                      cases hl : lookupKV acc
                          (⟨resolve src tr.fromT.initial, resolve src tr.fromT.withSymbol⟩ : SKey) with
                      | none => rfl
                      | some v => rw [hl] at h6; exact absurd rfl h6
                    exact lookupKV_none_not_mem acc _ hnone

/-- The inner completeness loop found nothing missing: every symbol has an
entry for this state. -/
theorem firstMissingInner_none (table : List (SKey × String)) (s : String) :
    ∀ alphabet : List String, firstMissingInner table s alphabet = none →
      ∀ a ∈ alphabet, (lookupKV table ⟨s, a⟩).isSome = true := by
  intro alphabet
  induction alphabet with
  | nil => intro _ a ha; cases ha
  | cons b rest ih =>
    intro h a ha
    rw [firstMissingInner] at h
    by_cases hb : (lookupKV table ⟨s, b⟩).isNone = true
    · rw [if_pos hb] at h; cases h
    · rw [if_neg hb] at h
      rcases List.mem_cons.mp ha with rfl | ha2
      · cases hl : lookupKV table ⟨s, a⟩ with
        | none => rw [hl] at hb; exact absurd rfl hb
        | some v => rfl
      · exact ih h a ha2

/-- The completeness check found nothing missing: the table is total over
declared states × declared alphabet. -/
theorem firstMissing_none (table : List (SKey × String)) (alphabet : List String) :
    ∀ states : List String, firstMissing table alphabet states = none →
      ∀ s ∈ states, ∀ a ∈ alphabet, (lookupKV table ⟨s, a⟩).isSome = true := by
  intro states
  induction states with
  | nil => intro _ s hs; cases hs
  | cons st rest ih =>
    intro h s hs a ha
    rw [firstMissing] at h
    cases hinner : firstMissingInner table st alphabet with
    | some p => rw [hinner] at h; cases h
    | none =>
      rw [hinner] at h
      rcases List.mem_cons.mp hs with rfl | hs2
      · exact firstMissingInner_none table s alphabet hinner a ha
      · exact ih h s hs2 a ha

/-- Structure of a successful DFA validation. -/
theorem dfaInfoNew_ok_facts (m : PartialMachineInfo) (src : String) (info : DFAInfo)
    (h : dfaInfoNew m src = .ok info) :
    info.alphabet = resolveAll src m.alphabet ∧
    info.startState = resolve src m.startState ∧
    resolve src m.startState ∈ resolveAll src m.states ∧
    processDFATransitions (resolveAll src m.states) (resolveAll src m.alphabet) src []
      m.transitions = .ok info.transitions ∧
    firstMissing info.transitions (resolveAll src m.alphabet) (resolveAll src m.states) = none := by
  simp only [dfaInfoNew] at h
  by_cases h1 : (m.stackAlphabet.isSome || m.startStack.isSome) = true
  · rw [if_pos h1] at h; cases h
  · rw [if_neg h1] at h
    by_cases h2 : (m.tapeAlphabet.isSome || m.blankSymbol.isSome) = true
    · rw [if_pos h2] at h; cases h
    · rw [if_neg h2] at h
      cases hcs : checkStatesList (resolveAll src m.states) src m.finalStates with
      | error sp => simp only [hcs] at h; cases h
      | ok finals =>
        simp only [hcs] at h
        by_cases hs : resolve src m.startState ∈ resolveAll src m.states
        · rw [if_pos hs] at h
          cases hp : processDFATransitions (resolveAll src m.states)
              (resolveAll src m.alphabet) src [] m.transitions with
          | error e => simp only [hp] at h; cases h
          | ok table =>
            simp only [hp] at h
            cases hm : firstMissing table (resolveAll src m.alphabet)
                (resolveAll src m.states) with
            | some p => simp only [hm] at h; cases h
            | none =>
              simp only [hm] at h
              injection h with h2
              subst h2
              exact ⟨rfl, rfl, hs, rfl, hm⟩
        · rw [if_neg hs] at h; cases h

/-- Run safety: from a declared state, with a total table over declared
states × alphabet whose destinations are declared, the missing-entry
rejection branch is unreachable. -/
theorem dfaRunFrom_no_missing (info : DFAInfo) (states : List String)
    (htot : ∀ s ∈ states, ∀ a ∈ info.alphabet, (lookupKV info.transitions ⟨s, a⟩).isSome = true)
    (hclosed : ∀ kv ∈ info.transitions, kv.2 ∈ states) :
    ∀ (chars : List Char) (cur : String), cur ∈ states →
      dfaRunFrom info chars cur ≠ .rejectedNoEntry := by
  intro chars
  induction chars with
  | nil =>
    intro cur _ h
    rw [dfaRunFrom] at h
    by_cases hf : cur ∈ info.finalStates
    · rw [if_pos hf] at h; cases h
    · rw [if_neg hf] at h; cases h
  | cons c cs ih =>
    intro cur hcur h
    rw [dfaRunFrom] at h
    cases hfind : info.alphabet.find? (symMatches c) with
    | none => simp only [hfind] at h; cases h
    | some sym =>
      simp only [hfind] at h
      have hsym : sym ∈ info.alphabet := List.mem_of_find?_eq_some hfind
      have hsome := htot cur hcur sym hsym
      cases hl : lookupKV info.transitions ⟨cur, sym⟩ with
      | none => rw [hl] at hsome; cases hsome
      | some v =>
        simp only [hl] at h
        exact ih v (hclosed _ (lookupKV_mem _ _ _ hl)) h

/-- Claim C2: when DFA validation succeeds, the table has exactly one
entry for every (declared state, declared alphabet symbol) pair, and no
run can ever reject through the missing-table-entry branch — every
run-time rejection comes from an input character matching no
one-character alphabet symbol. -/
theorem c2_dfa_validated_table_total_run_never_missing (m : PartialMachineInfo)
    (src : String) (info : DFAInfo) (h : dfaInfoNew m src = .ok info) :
    (∀ s ∈ resolveAll src m.states, ∀ a ∈ resolveAll src m.alphabet,
       countKey info.transitions (⟨s, a⟩ : SKey) = 1) ∧
    (∀ input : String, dfaRun info input ≠ .rejectedNoEntry) := by
  obtain ⟨halph, hstart, hsmem, hproc, hmiss⟩ := dfaInfoNew_ok_facts m src info h
  obtain ⟨hentries, hnodup⟩ :=
    processDFA_ok_facts (resolveAll src m.states) (resolveAll src m.alphabet) src
      m.transitions [] info.transitions hproc
  have hnd : (info.transitions.map Prod.fst).Nodup := hnodup (by simp)
  have htot := firstMissing_none info.transitions (resolveAll src m.alphabet)
    (resolveAll src m.states) hmiss
  constructor
  · intro s hs a ha
    have hsome := htot s hs a ha
    cases hl : lookupKV info.transitions ⟨s, a⟩ with
    | none => rw [hl] at hsome; cases hsome
    | some v => exact countKey_eq_one info.transitions ⟨s, a⟩ v hnd hl
  · intro input
    have hclosed : ∀ kv ∈ info.transitions, kv.2 ∈ resolveAll src m.states := by
      intro kv hkv
      rcases hentries kv hkv with hacc | hgood
      · cases hacc
      · exact hgood.2.2
    have htot2 : ∀ s ∈ resolveAll src m.states, ∀ a ∈ info.alphabet,
        (lookupKV info.transitions ⟨s, a⟩).isSome = true := by
      intro s hs a ha
      exact htot s hs a (halph ▸ ha)
    rw [dfaRun, hstart]
    exact dfaRunFrom_no_missing info (resolveAll src m.states) htot2 hclosed
      input.data (resolve src m.startState) hsmem

/-- Witness for C2 at the concrete description `m0`. -/
theorem c2_witness :
    countKey dfaInfo0.transitions (⟨"q0", "a"⟩ : SKey) = 1 ∧
    dfaRun dfaInfo0 "ab" ≠ DFAOutcome.rejectedNoEntry := by
  have h := c2_dfa_validated_table_total_run_never_missing m0 src0 dfaInfo0 rfl
  exact ⟨h.1 "q0" (by decide) "a" (by decide), h.2 "ab"⟩

/-- Witness for C6: in `m6`, the transitions `q0(0) => (qf, WRITE:1, RIGHT)`
and `q0(0) => (q0, WRITE:0, LEFT)` share the key `(q0, 0)`; validation
succeeds and the table holds the later one. -/
theorem c6_witness :
    ∃ info, tmInfoNew m6 src6 = .ok info ∧
      lookupKV info.transitions (tmKeyOf src6 tmTr2) = some (tmToOf src6 tmTr2) :=
  c6_tm_duplicate_key_last_wins m6 src6 [] [] [] tmTr1 tmTr2 rfl (by decide) (by decide)
    (fun t ht => absurd ht (List.not_mem_nil t))

/-- Witness for C8: each conjunct instantiated at a concrete tape. -/
theorem c8_witness :
    ((Tape.mk ["a"] 3 "B").writeSymbol "x").tape.length = 4 ∧
    (Tape.mk ["a"] 3 "B").getCurrentSymbol = "B" ∧
    (Tape.mk ["a"] 0 "B").moveLeft.tape = "B" :: ["a"] ∧
    (Tape.mk ["a"] 0 "B").moveRight.tape = ["a"] ++ ["B"] ∧
    (Tape.mk ["a", "b", "c"] 0 "B").moveRight.tape = ["a", "b", "c"] := by
  refine ⟨((c8_tape_extension_properties ⟨["a"], 3, "B"⟩ "x").1 (by decide)).1,
          (c8_tape_extension_properties ⟨["a"], 3, "B"⟩ "x").2.1 (by decide),
          ((c8_tape_extension_properties ⟨["a"], 0, "B"⟩ "x").2.2.1 rfl).1,
          ((c8_tape_extension_properties ⟨["a"], 0, "B"⟩ "x").2.2.2.1 (by decide)).1,
          ((c8_tape_extension_properties ⟨["a", "b", "c"], 0, "B"⟩ "x").2.2.2.2 (by decide)).1⟩

end FlaLab
